import Mathlib

/-!
Verification of the FA2 archive builder (FA2_pack.py).

The builder is embedded shallowly: bytes are natural numbers below 256,
byte strings are lists, a Python str is the list of its Unicode code
points, and the in-memory serialization performed by pack_fa2 is a pure
function from an entry list to the archive byte list.  The companion
Archive Reader, which the spec describes but the source does not
contain, is modelled from the spec where a claim needs it.
-/

namespace FA2

/-- One archive entry: a file name (the list of its Unicode code points,
mirroring a Python str) and its raw content bytes.  Mirrors the
(fname, data) pairs that pack_fa2 in FA2_pack.py reads from the source
directory. -/
structure Entry where
  name : List Nat
  content : List Nat
  deriving DecidableEq, Inhabited, Repr

/-- Mirrors align16 in FA2_pack.py: (size + 0xF) & ~0xF.  On Python's
unbounded nonnegative integers, masking with ~0xF clears the four low
bits, i.e. subtracts the remainder modulo 16. -/
def align16 (size : Nat) : Nat :=
  (size + 0xF) - (size + 0xF) % 16

/-- Mirrors struct.pack("<I", n): the four little-endian bytes of
n (taken modulo 2^32). -/
def u32le (n : Nat) : List Nat :=
  [n % 256, n / 256 % 256, n / 65536 % 256, n / 16777216 % 256]

/-- orig_size in pack_fa2: the byte length of the entry's content. -/
def origSize (e : Entry) : Nat := e.content.length

/-- stored_size in pack_fa2: equal to orig_size, no compression path. -/
def storedSize (e : Entry) : Nat := origSize e

/-- Mirrors Python str.encode("utf-8") on a single code point
(standard UTF-8 byte layout by code-point range). -/
def utf8EncodeChar (c : Nat) : List Nat :=
  if c < 0x80 then [c]
  else if c < 0x800 then [0xC0 + c / 0x40, 0x80 + c % 0x40]
  else if c < 0x10000 then
    [0xE0 + c / 0x1000, 0x80 + c / 0x40 % 0x40, 0x80 + c % 0x40]
  else
    [0xF0 + c / 0x40000, 0x80 + c / 0x1000 % 0x40, 0x80 + c / 0x40 % 0x40,
      0x80 + c % 0x40]

/-- Mirrors fname.encode("utf-8") in pack_fa2 line 57. -/
def utf8Encode : List Nat → List Nat
  | [] => []
  | c :: cs => utf8EncodeChar c ++ utf8Encode cs

/-- Mirrors the name encoding of pack_fa2 lines 56-64: encode the name
as UTF-8; if the encoding is 15 bytes or longer, truncate to 14 bytes
and append a null byte, otherwise append a null byte; finally
ljust(15, b"\x00"). -/
def nameField (fname : List Nat) : List Nat :=
  let nb := utf8Encode fname
  let nb2 := if nb.length ≥ 15 then nb.take 14 ++ [0] else nb ++ [0]
  nb2 ++ List.replicate (15 - nb2.length) 0

/-- One 32-byte index record (pack_fa2 lines 55-71): 15-byte name field,
9 reserved zero bytes, orig_size and stored_size as 4-byte
little-endian integers. -/
def indexRecord (e : Entry) : List Nat :=
  nameField e.name ++ List.replicate 9 0 ++ u32le (origSize e) ++
    u32le (storedSize e)

/-- The bytes one entry contributes to the data region (pack_fa2 lines
30-34): the raw content followed by align16(orig_size) - orig_size zero
padding bytes. -/
def paddedData (e : Entry) : List Nat :=
  e.content ++ List.replicate (align16 (origSize e) - origSize e) 0

/-- file_data in pack_fa2: the concatenation of every entry's padded
content, in input order. -/
def file_data : List Entry → List Nat
  | [] => []
  | e :: es => paddedData e ++ file_data es

/-- index_table in pack_fa2: the concatenation of the 32-byte index
records, in input order. -/
def index_table : List Entry → List Nat
  | [] => []
  | e :: es => indexRecord e ++ index_table es

/-- The final value of the data_offset accumulator of pack_fa2 lines
19-35, used as index_offset on line 39: it starts at 0x10 and grows by
align16(orig_size) per entry. -/
def index_offset (es : List Entry) : Nat :=
  es.foldl (fun off e => off + align16 (origSize e)) 0x10

/-- The 16-byte header of pack_fa2 lines 43-46: signature 0x00324146,
flags 0, index offset, file count, each as 4 little-endian bytes. -/
def header (es : List Entry) : List Nat :=
  u32le 0x00324146 ++ u32le 0 ++ u32le (index_offset es) ++ u32le es.length

/-- The whole archive image written by pack_fa2 lines 74-77:
header ++ file_data ++ index_table. -/
def pack_fa2 (es : List Entry) : List Nat :=
  header es ++ file_data es ++ index_table es

/-- The sequence of per-entry data offsets recorded in file_entries by
the loop of pack_fa2 lines 21-35, starting from a given accumulator
value (the loop starts it at 0x10). -/
def entryOffsets : Nat → List Entry → List Nat
  | _, [] => []
  | off, e :: es => off :: entryOffsets (off + align16 (origSize e)) es

/-- Modelled from the spec: byte count of one UTF-8 sequence, read off
its lead byte, as the Archive Reader must do to decode stored names. -/
def charLen (b : Nat) : Nat :=
  if b < 0xC0 then 1 else if b < 0xE0 then 2 else if b < 0xF0 then 3 else 4

/-- Modelled from the spec: the code point of one UTF-8 sequence with
lead byte b and following bytes bs (lenient on malformed input). -/
def decodeChar (b : Nat) (bs : List Nat) : Nat :=
  if b < 0xC0 then b
  else if b < 0xE0 then (b - 0xC0) * 0x40 + (bs.getD 0 0 - 0x80)
  else if b < 0xF0 then
    (b - 0xE0) * 0x1000 + (bs.getD 0 0 - 0x80) * 0x40 + (bs.getD 1 0 - 0x80)
  else
    (b - 0xF0) * 0x40000 + (bs.getD 0 0 - 0x80) * 0x1000 +
      (bs.getD 1 0 - 0x80) * 0x40 + (bs.getD 2 0 - 0x80)

/-- Modelled from the spec: fuelled UTF-8 decoding loop (one fuel unit
per decoded character; the initial fuel is the byte count, which always
suffices). -/
def utf8DecodeAux : Nat → List Nat → List Nat
  | 0, _ => []
  | _ + 1, [] => []
  | fuel + 1, b :: bs =>
    decodeChar b bs :: utf8DecodeAux fuel (bs.drop (charLen b - 1))

/-- Modelled from the spec: the companion Archive Reader (spec sections
2 and 8) is absent from the source; a reader must decode the stored
UTF-8 name bytes back to a string.  Standard UTF-8 decoding, the
inverse of utf8Encode. -/
def utf8Decode (bs : List Nat) : List Nat := utf8DecodeAux bs.length bs

/-- Modelled from the spec: little-endian decoding of a 4-byte unsigned
field, as the Archive Reader reads the header and index integers
(spec section 6: all integers little-endian). -/
def u32dec (bs : List Nat) : Nat :=
  bs.getD 0 0 + 0x100 * bs.getD 1 0 + 0x10000 * bs.getD 2 0 +
    0x1000000 * bs.getD 3 0

/-- Modelled from the spec: the Archive Reader's per-record loop.  Each
32-byte index record holds a null-terminated name in its first 15 bytes
and originalSize at record offset 24; the record carries no data
offset, so the reader derives each entry's offset by adding
align16(originalSize) of the preceding entry, starting from 16 (spec
section 3, IndexRecord note). -/
def parseRecords (archive : List Nat) :
    Nat → List Nat → Nat → List (List Nat × List Nat)
  | _, _, 0 => []
  | off, table, n + 1 =>
    (utf8Decode (((table.take 32).take 15).takeWhile (fun b => b != 0)),
      (archive.drop off).take (u32dec ((table.take 32).drop 24))) ::
      parseRecords archive (off + align16 (u32dec ((table.take 32).drop 24)))
        (table.drop 32) n

/-- Modelled from the spec: the Archive Reader implementing the inverse
of the section 4.1 layout: read indexOffset at byte 8 and entryCount at
byte 12, walk the index table at indexOffset, and cut each entry's
content out of the data region that starts at byte 16. -/
def parse_fa2 (archive : List Nat) : List (List Nat × List Nat) :=
  parseRecords archive 16 (archive.drop (u32dec ((archive.drop 8).take 4)))
    (u32dec ((archive.drop 12).take 4))

/-! ### Basic facts about the building blocks -/

lemma align16_le (n : Nat) : n ≤ align16 n := by
  unfold align16; omega

lemma align16_dvd (n : Nat) : 16 ∣ align16 n := by
  unfold align16; omega

lemma align16_of_dvd {n : Nat} (h : 16 ∣ n) : align16 n = n := by
  unfold align16; omega

lemma u32dec_u32le (n : Nat) (h : n < 2 ^ 32) : u32dec (u32le n) = n := by
  have hd : u32dec (u32le n) =
      n % 256 + 0x100 * (n / 256 % 256) + 0x10000 * (n / 65536 % 256) +
        0x1000000 * (n / 16777216 % 256) := rfl
  rw [hd]; omega

lemma nameField_length (f : List Nat) : (nameField f).length = 15 := by
  unfold nameField
  by_cases h : (utf8Encode f).length ≥ 15 <;>
    simp [h, List.length_take] <;> omega

lemma indexRecord_length (e : Entry) : (indexRecord e).length = 32 := by
  simp [indexRecord, nameField_length, u32le]

lemma nameField_long (f : List Nat) (h : 15 ≤ (utf8Encode f).length) :
    nameField f = (utf8Encode f).take 14 ++ [0] := by
  simp only [nameField, ge_iff_le]
  rw [if_pos h]
  have h14 : ((utf8Encode f).take 14 ++ [0]).length = 15 := by
    simp [List.length_take]
    omega
  rw [h14]
  simp

lemma nameField_short (f : List Nat) (h : (utf8Encode f).length < 15) :
    nameField f =
      utf8Encode f ++ 0 :: List.replicate (14 - (utf8Encode f).length) 0 := by
  simp only [nameField, ge_iff_le]
  rw [if_neg (by omega)]
  rw [List.append_assoc]
  congr 1
  have hl : (utf8Encode f ++ [0]).length = (utf8Encode f).length + 1 := by
    simp
  rw [hl]
  show 0 :: List.replicate (15 - ((utf8Encode f).length + 1)) 0 = _
  congr 1
  congr 1
  omega

lemma paddedData_length (e : Entry) :
    (paddedData e).length = align16 e.content.length := by
  have h := align16_le e.content.length
  simp [paddedData, origSize]
  omega

lemma file_data_length (es : List Entry) :
    (file_data es).length = (es.map fun e => align16 e.content.length).sum := by
  induction es with
  | nil => rfl
  | cons e es ih => simp [file_data, paddedData_length, ih]

lemma index_table_length (es : List Entry) :
    (index_table es).length = 32 * es.length := by
  induction es with
  | nil => rfl
  | cons e es ih => simp [index_table, indexRecord_length, ih]; ring

lemma index_offset_eq (es : List Entry) :
    index_offset es = 16 + (es.map fun e => align16 e.content.length).sum := by
  unfold index_offset
  have aux : ∀ (l : List Entry) (a : Nat),
      l.foldl (fun off e => off + align16 (origSize e)) a =
        a + (l.map fun e => align16 e.content.length).sum := by
    intro l
    induction l with
    | nil => simp
    | cons e l ih =>
      intro a
      rw [List.foldl_cons, ih]
      simp [origSize]
      omega
  exact aux es 0x10

lemma header_length (es : List Entry) : (header es).length = 16 := rfl

/-- Dropping the first 8 bytes of the archive exposes the indexOffset
field, then the entryCount field, then the rest. -/
lemma pack_drop_8 (es : List Entry) :
    (pack_fa2 es).drop 8 =
      u32le (index_offset es) ++
        (u32le es.length ++ (file_data es ++ index_table es)) := rfl

/-- Dropping the first 12 bytes of the archive exposes the entryCount
field, then the rest. -/
lemma pack_drop_12 (es : List Entry) :
    (pack_fa2 es).drop 12 =
      u32le es.length ++ (file_data es ++ index_table es) := rfl

lemma take_4_u32le (n : Nat) (rest : List Nat) :
    (u32le n ++ rest).take 4 = u32le n := rfl

lemma indexOffset_field (es : List Entry)
    (h : 16 + (es.map fun e => align16 e.content.length).sum < 2 ^ 32) :
    u32dec (((pack_fa2 es).drop 8).take 4) =
      16 + (es.map fun e => align16 e.content.length).sum := by
  rw [pack_drop_8, take_4_u32le, u32dec_u32le _ (by rw [index_offset_eq]; exact h)]
  exact index_offset_eq es

lemma entryCount_field (es : List Entry) (h : es.length < 2 ^ 32) :
    u32dec (((pack_fa2 es).drop 12).take 4) = es.length := by
  rw [pack_drop_12, take_4_u32le, u32dec_u32le _ h]

/-! ### Facts about the recorded data offsets -/

lemma entryOffsets_head (es : List Entry) (a : Nat) (h : es ≠ []) :
    (entryOffsets a es).getD 0 0 = a := by
  cases es with
  | nil => exact absurd rfl h
  | cons e es => rfl

lemma entryOffsets_getD_succ :
    ∀ (es : List Entry) (a i : Nat), i + 1 < es.length →
      (entryOffsets a es).getD (i + 1) 0 =
        (entryOffsets a es).getD i 0 +
          align16 (es.getD i default).content.length := by
  intro es
  induction es with
  | nil => intro a i h; simp at h
  | cons e es ih =>
    intro a i h
    match i with
    | 0 =>
      have hne : es ≠ [] := by
        intro hnil
        rw [hnil] at h
        simp at h
      simp only [entryOffsets, List.getD_cons_succ, List.getD_cons_zero]
      rw [entryOffsets_head es _ hne]
      rfl
    | i + 1 =>
      have hlt : i + 1 < es.length := by simpa using h
      simp only [entryOffsets, List.getD_cons_succ]
      exact ih _ i (by omega)

lemma entryOffsets_dvd :
    ∀ (es : List Entry) (a : Nat), 16 ∣ a →
      ∀ i, i < es.length → 16 ∣ (entryOffsets a es).getD i 0 := by
  intro es
  induction es with
  | nil => intro a ha i h; simp at h
  | cons e es ih =>
    intro a ha i h
    match i with
    | 0 => exact ha
    | i + 1 =>
      have hlt : i < es.length := by simpa using h
      exact ih (a + align16 (origSize e))
        (Nat.dvd_add ha (align16_dvd _)) i hlt

/-! ### Claim theorems (header, sizes, offsets, name field, determinism) -/

/-- C2: the 4-byte little-endian indexOffset field at byte offset 8 of
the built archive equals 16 + sum(align16(len(content)) over all
entries), and the 4-byte little-endian entryCount field at byte offset
12 equals the number of entries (both fields being 4 bytes wide, the
values must fit in 2^32). -/
theorem fa2_C2 (es : List Entry)
    (h1 : 16 + (es.map fun e => align16 e.content.length).sum < 2 ^ 32)
    (h2 : es.length < 2 ^ 32) :
    u32dec (((pack_fa2 es).drop 8).take 4) =
      16 + (es.map fun e => align16 e.content.length).sum ∧
    u32dec (((pack_fa2 es).drop 12).take 4) = es.length :=
  ⟨indexOffset_field es h1, entryCount_field es h2⟩

/-- Witness for C2 at the spec section 8 example: contents of 2 and 20
bytes give indexOffset 16 + 16 + 32 = 64 and entryCount 2. -/
theorem fa2_C2_witness :
    16 + (([⟨[97], [104, 105]⟩, ⟨[98], List.replicate 20 0⟩] : List Entry).map
        fun e => align16 e.content.length).sum < 2 ^ 32 ∧
    ([⟨[97], [104, 105]⟩, ⟨[98], List.replicate 20 0⟩] : List Entry).length <
      2 ^ 32 ∧
    (u32dec (((pack_fa2 [⟨[97], [104, 105]⟩,
        ⟨[98], List.replicate 20 0⟩]).drop 8).take 4) =
      16 + (([⟨[97], [104, 105]⟩, ⟨[98], List.replicate 20 0⟩] : List Entry).map
        fun e => align16 e.content.length).sum ∧
     u32dec (((pack_fa2 [⟨[97], [104, 105]⟩,
        ⟨[98], List.replicate 20 0⟩]).drop 12).take 4) =
      ([⟨[97], [104, 105]⟩, ⟨[98], List.replicate 20 0⟩] : List Entry).length) :=
  ⟨by decide, by decide, fa2_C2 _ (by decide) (by decide)⟩

/-- C3: the total byte length of the built archive equals
16 + sum(align16(originalSize)) + 32 * entryCount, and the empty entry
list builds exactly the 16-byte header with signature 0x00324146,
flags 0, indexOffset 16 and entryCount 0. -/
theorem fa2_C3 :
    (∀ es : List Entry, (pack_fa2 es).length =
      16 + (es.map fun e => align16 e.content.length).sum + 32 * es.length) ∧
    pack_fa2 [] = [0x46, 0x41, 0x32, 0, 0, 0, 0, 0, 0x10, 0, 0, 0,
      0, 0, 0, 0] := by
  constructor
  · intro es
    show (header es ++ file_data es ++ index_table es).length = _
    rw [List.length_append, List.length_append, header_length,
      file_data_length, index_table_length]
  · rfl

/-- C5: the 15-byte name field of an index record is the first 14 bytes
of the UTF-8 encoding of the name followed by one null byte when the
encoding is 15 bytes or longer, and otherwise the encoding followed by
a null byte right-padded with zero bytes to 15 bytes; the field is
always exactly 15 bytes and the whole record exactly 32 bytes. -/
theorem fa2_C5 (fname content : List Nat) :
    (nameField fname).length = 15 ∧
    nameField fname =
      (if 15 ≤ (utf8Encode fname).length then
        (utf8Encode fname).take 14 ++ [0]
       else
        utf8Encode fname ++ 0 ::
          List.replicate (14 - (utf8Encode fname).length) 0) ∧
    (indexRecord ⟨fname, content⟩).length = 32 := by
  refine ⟨nameField_length fname, ?_, indexRecord_length _⟩
  by_cases h : 15 ≤ (utf8Encode fname).length
  · rw [if_pos h]
    exact nameField_long fname h
  · rw [if_neg h]
    exact nameField_short fname (by omega)

/-- C8: building is deterministic: two invocations on identical input
yield byte-identical output; the archive is a pure function of the
entry list, with no timestamps or random elements. -/
theorem fa2_C8 (es1 es2 : List Entry) (h : es1 = es2) :
    pack_fa2 es1 = pack_fa2 es2 := by
  rw [h]

/-- Witness for C8 at a concrete one-entry input. -/
theorem fa2_C8_witness :
    ([⟨[97], [1, 2]⟩] : List Entry) = [⟨[97], [1, 2]⟩] ∧
    pack_fa2 [⟨[97], [1, 2]⟩] = pack_fa2 [⟨[97], [1, 2]⟩] :=
  ⟨rfl, fa2_C8 _ _ rfl⟩

/-- C4: the first entry's data offset is 16; each subsequent entry's
offset is the previous offset plus align16 of the previous entry's
originalSize; every offset is a multiple of 16; and align16 leaves
multiples of 16 (including 0) unchanged. -/
theorem fa2_C4 (es : List Entry) :
    (es ≠ [] → (entryOffsets 0x10 es).getD 0 0 = 16) ∧
    (∀ i, i + 1 < es.length →
      (entryOffsets 0x10 es).getD (i + 1) 0 =
        (entryOffsets 0x10 es).getD i 0 +
          align16 (es.getD i default).content.length) ∧
    (∀ i, i < es.length → 16 ∣ (entryOffsets 0x10 es).getD i 0) ∧
    (∀ n : Nat, 16 ∣ n → align16 n = n) :=
  ⟨fun h => entryOffsets_head es 0x10 h,
   fun i h => entryOffsets_getD_succ es 0x10 i h,
   fun i h => entryOffsets_dvd es 0x10 ⟨1, rfl⟩ i h,
   fun _ h => align16_of_dvd h⟩

/-- Witness for C4 at two entries of 2 and 20 content bytes: offsets
[16, 32], both multiples of 16, and align16 32 = 32. -/
theorem fa2_C4_witness :
    ([⟨[97], [104, 105]⟩, ⟨[98], List.replicate 20 0⟩] : List Entry) ≠ [] ∧
    (entryOffsets 0x10 [⟨[97], [104, 105]⟩,
      ⟨[98], List.replicate 20 0⟩]).getD 0 0 = 16 ∧
    0 + 1 < ([⟨[97], [104, 105]⟩, ⟨[98], List.replicate 20 0⟩] :
      List Entry).length ∧
    (entryOffsets 0x10 [⟨[97], [104, 105]⟩,
        ⟨[98], List.replicate 20 0⟩]).getD (0 + 1) 0 =
      (entryOffsets 0x10 [⟨[97], [104, 105]⟩,
        ⟨[98], List.replicate 20 0⟩]).getD 0 0 +
        align16 (([⟨[97], [104, 105]⟩, ⟨[98], List.replicate 20 0⟩] :
          List Entry).getD 0 default).content.length ∧
    16 ∣ (entryOffsets 0x10 [⟨[97], [104, 105]⟩,
      ⟨[98], List.replicate 20 0⟩]).getD 1 0 ∧
    (16 : Nat) ∣ 32 ∧ align16 32 = 32 :=
  ⟨by decide, (fa2_C4 _).1 (by decide), by decide,
   (fa2_C4 _).2.1 0 (by decide), (fa2_C4 _).2.2.1 1 (by decide),
   by decide, (fa2_C4 ([] : List Entry)).2.2.2 32 (by decide)⟩

/-- C9: an empty-content entry contributes no data and no padding
bytes, the next entry's data offset equals its own (so distinct entries
can share one offset), and an archive whose entries all have empty
content has indexOffset 16 even with a positive entry count. -/
theorem fa2_C9 (es : List Entry) :
    (∀ e : Entry, e.content = [] → paddedData e = []) ∧
    (∀ i, i + 1 < es.length → (es.getD i default).content = [] →
      (entryOffsets 0x10 es).getD (i + 1) 0 =
        (entryOffsets 0x10 es).getD i 0) ∧
    ((∀ e ∈ es, e.content = []) →
      u32dec (((pack_fa2 es).drop 8).take 4) = 16) := by
  have hsum : ∀ l : List Entry, (∀ e ∈ l, e.content = []) →
      (l.map fun e => align16 e.content.length).sum = 0 := by
    intro l
    induction l with
    | nil => intro _; rfl
    | cons e l ih =>
      intro hl
      rw [List.map_cons, List.sum_cons, hl e (List.mem_cons_self e l),
        ih (fun x hx => hl x (List.mem_cons_of_mem _ hx))]
      decide
  refine ⟨?_, ?_, ?_⟩
  · intro e he
    simp [paddedData, origSize, he, align16]
  · intro i h hc
    rw [entryOffsets_getD_succ es 0x10 i h, hc]
    simp [align16]
  · intro hall
    have hfield := indexOffset_field es (by rw [hsum es hall]; norm_num)
    rw [hfield, hsum es hall]

/-- Witness for C9 at two distinct empty-content entries sharing data
offset 16, with indexOffset 16 and entryCount 2. -/
theorem fa2_C9_witness :
    paddedData ⟨[99], []⟩ = [] ∧
    0 + 1 < ([⟨[97], []⟩, ⟨[98], []⟩] : List Entry).length ∧
    (entryOffsets 0x10 [⟨[97], []⟩, ⟨[98], []⟩]).getD (0 + 1) 0 =
      (entryOffsets 0x10 [⟨[97], []⟩, ⟨[98], []⟩]).getD 0 0 ∧
    u32dec (((pack_fa2 [⟨[97], []⟩, ⟨[98], []⟩]).drop 8).take 4) = 16 :=
  ⟨(fa2_C9 []).1 _ rfl, by decide,
   (fa2_C9 _).2.1 0 (by decide) (by decide), (fa2_C9 _).2.2 (by decide)⟩

/-! ### UTF-8 encoding and decoding facts -/

lemma utf8EncodeChar_length_pos (c : Nat) : 0 < (utf8EncodeChar c).length := by
  unfold utf8EncodeChar
  split_ifs <;> simp

lemma utf8Encode_length_ge (s : List Nat) :
    s.length ≤ (utf8Encode s).length := by
  induction s with
  | nil => simp [utf8Encode]
  | cons c cs ih =>
    rw [utf8Encode, List.length_append]
    have := utf8EncodeChar_length_pos c
    simp only [List.length_cons]
    omega

lemma utf8DecodeAux_encode :
    ∀ (s : List Nat) (fuel : Nat), (∀ c ∈ s, c < 0x110000) →
      s.length ≤ fuel → utf8DecodeAux fuel (utf8Encode s) = s := by
  intro s
  induction s with
  | nil => intro fuel _ _; cases fuel <;> rfl
  | cons c cs ih =>
    intro fuel hs hf
    obtain ⟨f, rfl⟩ : ∃ f, fuel = f + 1 :=
      ⟨fuel - 1, by simp at hf; omega⟩
    have hc : c < 0x110000 := hs c (List.mem_cons_self _ _)
    have hcs : ∀ x ∈ cs, x < 0x110000 :=
      fun x hx => hs x (List.mem_cons_of_mem _ hx)
    have hfcs : cs.length ≤ f := by simp at hf; omega
    rw [utf8Encode]
    by_cases h1 : c < 0x80
    · rw [utf8EncodeChar, if_pos h1]
      simp only [List.cons_append, List.nil_append]
      rw [utf8DecodeAux]
      rw [show charLen c - 1 = 0 by rw [charLen, if_pos (by omega : c < 0xC0)]]
      rw [List.drop_zero, ih f hcs hfcs]
      congr 1
      rw [decodeChar, if_pos (by omega : c < 0xC0)]
    · by_cases h2 : c < 0x800
      · rw [utf8EncodeChar, if_neg h1, if_pos h2]
        simp only [List.cons_append, List.nil_append]
        rw [utf8DecodeAux]
        rw [show charLen (0xC0 + c / 0x40) - 1 = 1 by
          rw [charLen, if_neg (by omega), if_pos (by omega)]]
        simp only [List.drop_succ_cons, List.drop_zero]
        rw [ih f hcs hfcs]
        congr 1
        rw [decodeChar, if_neg (by omega), if_pos (by omega)]
        simp only [List.getD_cons_zero]
        omega
      · by_cases h3 : c < 0x10000
        · rw [utf8EncodeChar, if_neg h1, if_neg h2, if_pos h3]
          simp only [List.cons_append, List.nil_append]
          rw [utf8DecodeAux]
          rw [show charLen (0xE0 + c / 0x1000) - 1 = 2 by
            rw [charLen, if_neg (by omega), if_neg (by omega),
              if_pos (by omega)]]
          simp only [List.drop_succ_cons, List.drop_zero]
          rw [ih f hcs hfcs]
          congr 1
          rw [decodeChar, if_neg (by omega), if_neg (by omega),
            if_pos (by omega)]
          simp only [List.getD_cons_zero, List.getD_cons_succ]
          omega
        · rw [utf8EncodeChar, if_neg h1, if_neg h2, if_neg h3]
          simp only [List.cons_append, List.nil_append]
          rw [utf8DecodeAux]
          rw [show charLen (0xF0 + c / 0x40000) - 1 = 3 by
            rw [charLen, if_neg (by omega), if_neg (by omega),
              if_neg (by omega)]]
          simp only [List.drop_succ_cons, List.drop_zero]
          rw [ih f hcs hfcs]
          congr 1
          rw [decodeChar, if_neg (by omega), if_neg (by omega),
            if_neg (by omega)]
          simp only [List.getD_cons_zero, List.getD_cons_succ]
          omega

lemma utf8Decode_encode (s : List Nat) (hs : ∀ c ∈ s, c < 0x110000) :
    utf8Decode (utf8Encode s) = s :=
  utf8DecodeAux_encode s (utf8Encode s).length hs (utf8Encode_length_ge s)

lemma utf8EncodeChar_ne_zero (c : Nat) (hc : 0 < c) :
    ∀ b ∈ utf8EncodeChar c, b ≠ 0 := by
  unfold utf8EncodeChar
  by_cases h1 : c < 0x80
  · rw [if_pos h1]
    intro b hb
    simp at hb
    omega
  · rw [if_neg h1]
    by_cases h2 : c < 0x800
    · rw [if_pos h2]
      intro b hb
      simp at hb
      rcases hb with h | h <;> omega
    · rw [if_neg h2]
      by_cases h3 : c < 0x10000
      · rw [if_pos h3]
        intro b hb
        simp at hb
        rcases hb with h | h | h <;> omega
      · rw [if_neg h3]
        intro b hb
        simp at hb
        rcases hb with h | h | h | h <;> omega

lemma utf8Encode_ne_zero (s : List Nat) (hs : ∀ c ∈ s, 0 < c) :
    ∀ b ∈ utf8Encode s, b ≠ 0 := by
  induction s with
  | nil => intro b hb; simp [utf8Encode] at hb
  | cons c cs ih =>
    intro b hb
    rw [utf8Encode] at hb
    rcases List.mem_append.mp hb with h | h
    · exact utf8EncodeChar_ne_zero c (hs c (List.mem_cons_self _ _)) b h
    · exact ih (fun x hx => hs x (List.mem_cons_of_mem _ hx)) b h

lemma takeWhile_ne_zero_append (xs zs : List Nat)
    (hxs : ∀ x ∈ xs, x ≠ 0) :
    (xs ++ 0 :: zs).takeWhile (fun b => b != 0) = xs := by
  induction xs with
  | nil => simp [List.takeWhile_cons]
  | cons x xs ih =>
    have hx : x ≠ 0 := hxs x (List.mem_cons_self _ _)
    simp only [List.cons_append, List.takeWhile_cons]
    rw [if_pos (by simpa using hx)]
    rw [ih (fun y hy => hxs y (List.mem_cons_of_mem _ hy))]

/-- C10: name truncation operates on UTF-8 bytes, not characters: for
the 14-character name of 13 ASCII letters followed by U+00E9 (whose
encoding is 15 bytes, with the 2-byte character straddling byte
position 14), the stored 14-byte name portion is not the UTF-8
encoding of any prefix of the name (it ends in the dangling lead byte
0xC3). -/
theorem fa2_C10 :
    ∃ name : List Nat,
      15 ≤ (utf8Encode name).length ∧
      ∀ k, k ≤ name.length →
        (nameField name).take 14 ≠ utf8Encode (name.take k) :=
  ⟨List.replicate 13 120 ++ [0xE9], by decide, by decide⟩

/-! ### The round trip: the spec-modelled reader inverts the builder -/

lemma u32dec_u32le_append (n : Nat) (h : n < 2 ^ 32) (rest : List Nat) :
    u32dec (u32le n ++ rest) = n := by
  have hd : u32dec (u32le n ++ rest) =
      n % 256 + 0x100 * (n / 256 % 256) + 0x10000 * (n / 65536 % 256) +
        0x1000000 * (n / 16777216 % 256) := rfl
  rw [hd]; omega

lemma indexRecord_take_15 (e : Entry) :
    (indexRecord e).take 15 = nameField e.name := by
  rw [indexRecord, List.append_assoc, List.append_assoc]
  exact List.take_left' (nameField_length e.name)

lemma indexRecord_drop_24 (e : Entry) :
    (indexRecord e).drop 24 = u32le (origSize e) ++ u32le (storedSize e) := by
  have h24 : (nameField e.name ++ List.replicate 9 0).length = 24 := by
    rw [List.length_append, nameField_length]
    rfl
  rw [indexRecord, List.append_assoc]
  exact List.drop_left' h24

lemma nameField_takeWhile (f : List Nat) (hz : ∀ c ∈ f, 0 < c)
    (hl : (utf8Encode f).length ≤ 14) :
    (nameField f).takeWhile (fun b => b != 0) = utf8Encode f := by
  rw [nameField_short f (by omega)]
  exact takeWhile_ne_zero_append _ _ (utf8Encode_ne_zero f hz)

lemma parseRecords_pack :
    ∀ (es : List Entry) (pre suf tail : List Nat),
      (∀ e ∈ es, (∀ c ∈ e.name, 0 < c ∧ c < 0x110000) ∧
        (utf8Encode e.name).length ≤ 14 ∧ e.content.length < 2 ^ 32) →
      parseRecords (pre ++ file_data es ++ suf) pre.length
        (index_table es ++ tail) es.length =
        es.map fun e => (e.name, e.content) := by
  intro es
  induction es with
  | nil => intro pre suf tail _; rfl
  | cons e es ih =>
    intro pre suf tail hv
    obtain ⟨hname, hlen, hsz⟩ := hv e (List.mem_cons_self _ _)
    have hvt : ∀ x ∈ es, (∀ c ∈ x.name, 0 < c ∧ c < 0x110000) ∧
        (utf8Encode x.name).length ≤ 14 ∧ x.content.length < 2 ^ 32 :=
      fun x hx => hv x (List.mem_cons_of_mem _ hx)
    have htab : index_table (e :: es) ++ tail =
        indexRecord e ++ (index_table es ++ tail) := by
      rw [index_table, List.append_assoc]
    rw [htab]
    show parseRecords _ _ _ (es.length + 1) = _
    rw [parseRecords]
    rw [List.take_left' (indexRecord_length e)]
    rw [indexRecord_take_15 e, indexRecord_drop_24 e]
    rw [u32dec_u32le_append (origSize e) hsz]
    rw [nameField_takeWhile e.name (fun c hc => (hname c hc).1) hlen]
    rw [utf8Decode_encode e.name (fun c hc => (hname c hc).2)]
    have hdata : ((pre ++ file_data (e :: es) ++ suf).drop pre.length).take
        (origSize e) = e.content := by
      rw [List.append_assoc, List.drop_left]
      rw [file_data, paddedData, List.append_assoc, List.append_assoc]
      exact List.take_left' rfl
    rw [hdata]
    rw [List.drop_left' (indexRecord_length e)]
    congr 1
    have harch : pre ++ file_data (e :: es) ++ suf =
        (pre ++ paddedData e) ++ file_data es ++ suf := by
      rw [file_data, ← List.append_assoc pre (paddedData e) (file_data es)]
    have hoff : pre.length + align16 (origSize e) =
        (pre ++ paddedData e).length := by
      rw [List.length_append, paddedData_length]
      rfl
    rw [harch, hoff]
    exact ih (pre ++ paddedData e) suf tail hvt

/-- C1 counterexample: a single entry whose name is fifteen copies of
the letter a (UTF-8 encoding 15 bytes long) satisfies the pairwise
distinct-names hypothesis, yet parsing the built archive with the
spec-modelled reader returns the 14-byte truncated name, not the
original entry list. -/
theorem fa2_C1_counterexample :
    (([⟨List.replicate 15 97, [1]⟩] : List Entry).map Entry.name).Nodup ∧
    parse_fa2 (pack_fa2 [⟨List.replicate 15 97, [1]⟩]) ≠
      ([⟨List.replicate 15 97, [1]⟩] : List Entry).map
        fun e => (e.name, e.content) := by
  constructor
  · decide
  · decide

/-- C1 (amended): for entries with pairwise-distinct names whose UTF-8
encodings are at most 14 bytes (so that the builder's truncation to 14
name bytes does not fire), made of nonzero code points (so that the
null-terminated field is read back whole), and with sizes and counts
that fit the 4-byte header and record fields, building then parsing
with the spec-modelled reader returns the same names, the same content
bytes, in the same order. -/
theorem fa2_C1_theorem (es : List Entry)
    (_hnodup : (es.map Entry.name).Nodup)
    (hv : ∀ e ∈ es, (∀ c ∈ e.name, 0 < c ∧ c < 0x110000) ∧
      (utf8Encode e.name).length ≤ 14 ∧ e.content.length < 2 ^ 32)
    (hio : 16 + (es.map fun e => align16 e.content.length).sum < 2 ^ 32)
    (hn : es.length < 2 ^ 32) :
    parse_fa2 (pack_fa2 es) = es.map fun e => (e.name, e.content) := by
  rw [parse_fa2]
  rw [indexOffset_field es hio, entryCount_field es hn]
  have hdrop : (pack_fa2 es).drop
      (16 + (es.map fun e => align16 e.content.length).sum) =
      index_table es := by
    show ((header es ++ file_data es) ++ index_table es).drop _ = _
    exact List.drop_left'
      (by rw [List.length_append, header_length, file_data_length])
  rw [hdrop]
  have h := parseRecords_pack es (header es) (index_table es) [] hv
  rw [List.append_nil, header_length] at h
  exact h

/-- Witness for C1 (amended) at two short-named entries. -/
theorem fa2_C1_witness :
    (([⟨[97], [104, 105]⟩, ⟨[98, 99], List.replicate 20 7⟩] :
      List Entry).map Entry.name).Nodup ∧
    (∀ e ∈ ([⟨[97], [104, 105]⟩, ⟨[98, 99], List.replicate 20 7⟩] :
        List Entry), (∀ c ∈ e.name, 0 < c ∧ c < 0x110000) ∧
      (utf8Encode e.name).length ≤ 14 ∧ e.content.length < 2 ^ 32) ∧
    parse_fa2 (pack_fa2 [⟨[97], [104, 105]⟩,
        ⟨[98, 99], List.replicate 20 7⟩]) =
      ([⟨[97], [104, 105]⟩, ⟨[98, 99], List.replicate 20 7⟩] :
        List Entry).map fun e => (e.name, e.content) :=
  ⟨by decide, by decide,
   fa2_C1_theorem _ (by decide) (by decide) (by decide) (by decide)⟩

/-! ### The I/O behaviour of one build invocation -/

/-- Mirrors the read loop of pack_fa2 lines 21-26: every input file is
read before any output happens, and the first failing read aborts the
whole build (the with-open read raises through pack_fa2).  An input is
a name together with the outcome of reading its file. -/
def readAll : List (List Nat × Except Unit (List Nat)) →
    Except Unit (List Entry)
  | [] => Except.ok []
  | (nm, Except.ok data) :: rest =>
    match readAll rest with
    | Except.ok es => Except.ok (⟨nm, data⟩ :: es)
    | Except.error e => Except.error e
  | (_, Except.error e) :: _ => Except.error e

/-- Models the sequential out.write calls of pack_fa2 lines 75-77: each
write either appends its bytes whole or fails, leaving the destination
with only what the preceding writes produced; the schedule oks says
which writes succeed (missing entries default to success).  Returns the
bytes in the destination and whether every write succeeded. -/
def writeSeq : List (List Nat) → List Bool → List Nat × Bool
  | [], _ => ([], true)
  | piece :: rest, oks =>
    if oks.headD true then
      (piece ++ (writeSeq rest oks.tail).1, (writeSeq rest oks.tail).2)
    else ([], false)

/-- Mirrors pack_fa2 as an I/O process: read every input; on a read
failure the build aborts with the destination untouched, since the
destination is only opened on line 74, after the read loop; otherwise
open(output_file, "wb") truncates the destination and header, file
data and index table are written in sequence.  Returns the build
outcome and the final destination state (none = no file present). -/
def pack_fa2_io (inputs : List (List Nat × Except Unit (List Nat)))
    (dest0 : Option (List Nat)) (oks : List Bool) :
    Except Unit Unit × Option (List Nat) :=
  match readAll inputs with
  | Except.error e => (Except.error e, dest0)
  | Except.ok es =>
    (if (writeSeq [header es, file_data es, index_table es] oks).2 then
       Except.ok () else Except.error (),
     some (writeSeq [header es, file_data es, index_table es] oks).1)

lemma writeSeq_all_true :
    ∀ (pieces : List (List Nat)) (l : List Bool), (∀ b ∈ l, b = true) →
      writeSeq pieces l = (pieces.foldr (fun a b => a ++ b) [], true) := by
  intro pieces
  induction pieces with
  | nil => intro l _; rfl
  | cons p ps ih =>
    intro l hl
    have hh : l.headD true = true := by
      cases l with
      | nil => rfl
      | cons b bs => exact hl b (List.mem_cons_self _ _)
    have hh2 : l.head?.getD true = true := by
      cases l with
      | nil => rfl
      | cons b bs => exact hl b (List.mem_cons_self _ _)
    have ht : ∀ b ∈ l.tail, b = true := by
      cases l with
      | nil => intro b hb; simp at hb
      | cons x xs => intro b hb; exact hl b (List.mem_cons_of_mem _ hb)
    simp [writeSeq, hh, hh2, ih l.tail ht]

lemma pack_fa2_io_ok (inputs : List (List Nat × Except Unit (List Nat)))
    (dest0 : Option (List Nat)) (oks : List Bool) (es : List Entry)
    (hread : readAll inputs = Except.ok es) (hoks : ∀ b ∈ oks, b = true) :
    pack_fa2_io inputs dest0 oks = (Except.ok (), some (pack_fa2 es)) := by
  unfold pack_fa2_io
  rw [hread]
  simp [writeSeq_all_true _ oks hoks, pack_fa2]

/-- C6 counterexample: two entries that share the identical name [97]
build successfully into a full archive holding one index record per
entry; no ValidationError-class failure occurs anywhere in pack_fa2. -/
theorem fa2_C6_counterexample :
    (pack_fa2_io [([97], Except.ok [1]), ([97], Except.ok [2])] none []).1 =
      Except.ok () ∧
    (pack_fa2_io [([97], Except.ok [1]), ([97], Except.ok [2])] none []).2 =
      some (pack_fa2 [⟨[97], [1]⟩, ⟨[97], [2]⟩]) :=
  ⟨rfl, rfl⟩

/-- C6 (amended): pack_fa2 performs no name-uniqueness validation: a
build whose entry list contains duplicate names and whose reads and
writes succeed completes with Except.ok and writes the full archive,
instead of failing with a ValidationError-class condition. -/
theorem fa2_C6_theorem (inputs : List (List Nat × Except Unit (List Nat)))
    (dest0 : Option (List Nat)) (oks : List Bool) (es : List Entry)
    (hread : readAll inputs = Except.ok es)
    (_hdup : ¬ (es.map Entry.name).Nodup)
    (hoks : ∀ b ∈ oks, b = true) :
    pack_fa2_io inputs dest0 oks = (Except.ok (), some (pack_fa2 es)) :=
  pack_fa2_io_ok inputs dest0 oks es hread hoks

/-- Witness for C6 (amended) at two entries both named [97]. -/
theorem fa2_C6_witness :
    readAll [([97], Except.ok [1]), ([97], Except.ok [2])] =
      Except.ok [⟨[97], [1]⟩, ⟨[97], [2]⟩] ∧
    ¬ ((([⟨[97], [1]⟩, ⟨[97], [2]⟩] : List Entry).map Entry.name).Nodup) ∧
    pack_fa2_io [([97], Except.ok [1]), ([97], Except.ok [2])] none [true] =
      (Except.ok (), some (pack_fa2 [⟨[97], [1]⟩, ⟨[97], [2]⟩])) :=
  ⟨rfl, by decide, fa2_C6_theorem _ _ _ _ rfl (by decide) (by decide)⟩

/-- C7 counterexample: when the first input read succeeds but the
second write fails, the build fails with the destination holding only
the 16-byte header - neither untouched nor a complete archive. -/
theorem fa2_C7_counterexample :
    (pack_fa2_io [([97], Except.ok [1])] none [true, false]).1 =
      Except.error () ∧
    (pack_fa2_io [([97], Except.ok [1])] none [true, false]).2 ≠ none ∧
    (pack_fa2_io [([97], Except.ok [1])] none [true, false]).2 ≠
      some (pack_fa2 [⟨[97], [1]⟩]) :=
  ⟨rfl, by decide, by decide⟩

/-- C7 (amended): a build that fails while reading its input leaves the
destination untouched, because pack_fa2 opens the output only after the
read loop; and a build whose writes all succeed leaves the complete
archive; but a failure in the middle of writing can leave a truncated
file (see the counterexample). -/
theorem fa2_C7_theorem (inputs : List (List Nat × Except Unit (List Nat)))
    (dest0 : Option (List Nat)) (oks : List Bool) :
    (readAll inputs = Except.error () →
      pack_fa2_io inputs dest0 oks = (Except.error (), dest0)) ∧
    (∀ es, readAll inputs = Except.ok es → (∀ b ∈ oks, b = true) →
      pack_fa2_io inputs dest0 oks = (Except.ok (), some (pack_fa2 es))) := by
  constructor
  · intro h
    unfold pack_fa2_io
    rw [h]
  · intro es h hoks
    exact pack_fa2_io_ok inputs dest0 oks es h hoks

/-- Witness for C7 (amended): a failing read leaves a pre-existing
destination file exactly as it was. -/
theorem fa2_C7_witness :
    readAll [([97], Except.error ())] = Except.error () ∧
    pack_fa2_io [([97], Except.error ())] (some [5]) [] =
      (Except.error (), some [5]) :=
  ⟨rfl, (fa2_C7_theorem [([97], Except.error ())] (some [5]) []).1 rfl⟩

end FA2
